import Mathlib

/-!
Shallow embedding of the adaptive quadtree in `g_star.py`.

Python floats are modelled as rationals (`ℚ`); the arithmetic the program
performs on them (halving bounds, dividing a load by 4, multiplying by a
decay factor, comparing against thresholds) is exact on the values that
appear in the specification's scenarios.  Python exceptions are modelled
with `Option`; the mutation a method performs on the tree is returned as a
new tree value.  A second, heap-level model (`GridHeap` below) keeps the
Python object graph explicit — node objects addressed by id, children and
parent stored as ids — for the claims about reference vs. copy semantics.
-/

namespace GStar

/-- The bounds fields `(x_min, y_min, x_max, y_max)` of a quadtree node. -/
structure Box where
  x_min : ℚ
  y_min : ℚ
  x_max : ℚ
  y_max : ℚ
deriving DecidableEq

/-- `Node.contains`: half-open containment test on the bounds. -/
def Box.containsPt (b : Box) (x y : ℚ) : Bool :=
  decide (b.x_min ≤ x) && decide (x < b.x_max) &&
  decide (b.y_min ≤ y) && decide (y < b.y_max)

/-- Midpoint `mid_x` computed by `Node.subdivide`. -/
def Box.midX (b : Box) : ℚ := (b.x_min + b.x_max) / 2

/-- Midpoint `mid_y` computed by `Node.subdivide`. -/
def Box.midY (b : Box) : ℚ := (b.y_min + b.y_max) / 2

/-- Bounds of child `0` (lower-left) created by `Node.subdivide`. -/
def Box.quad0 (b : Box) : Box := ⟨b.x_min, b.y_min, b.midX, b.midY⟩

/-- Bounds of child `1` (lower-right) created by `Node.subdivide`. -/
def Box.quad1 (b : Box) : Box := ⟨b.midX, b.y_min, b.x_max, b.midY⟩

/-- Bounds of child `2` (upper-left) created by `Node.subdivide`. -/
def Box.quad2 (b : Box) : Box := ⟨b.x_min, b.midY, b.midX, b.y_max⟩

/-- Bounds of child `3` (upper-right) created by `Node.subdivide`. -/
def Box.quad3 (b : Box) : Box := ⟨b.midX, b.midY, b.x_max, b.y_max⟩

/-- A quadtree node: `leaf` when `children is None`, `inner` when the
`children` dict holds the four children `0,1,2,3`.  The `load` field is kept
on both shapes, exactly as the Python object keeps `self.load` whether or
not it has children. -/
inductive Node where
  | leaf (b : Box) (level : ℕ) (load : ℚ)
  | inner (b : Box) (level : ℕ) (load : ℚ) (c0 c1 c2 c3 : Node)
deriving DecidableEq

/-- The bounds fields of a node. -/
def Node.box : Node → Box
  | .leaf b _ _ => b
  | .inner b _ _ _ _ _ _ => b

/-- The `level` field of a node. -/
def Node.level : Node → ℕ
  | .leaf _ l _ => l
  | .inner _ l _ _ _ _ _ => l

/-- The `load` field of a node. -/
def Node.load : Node → ℚ
  | .leaf _ _ ld => ld
  | .inner _ _ ld _ _ _ _ => ld

/-- `Node.is_leaf`: true iff `children is None`. -/
def Node.is_leaf : Node → Bool
  | .leaf _ _ _ => true
  | .inner _ _ _ _ _ _ _ => false

/-- `Node.contains(x, y)`. -/
def Node.contains (n : Node) (x y : ℚ) : Bool := n.box.containsPt x y

/-- `Node.subdivide`: replace the children with the four quadrants at
`level + 1`, give each a quarter of the current load, and zero own load. -/
def Node.subdivide (n : Node) : Node :=
  .inner n.box n.level 0
    (.leaf n.box.quad0 (n.level + 1) (n.load / 4))
    (.leaf n.box.quad1 (n.level + 1) (n.load / 4))
    (.leaf n.box.quad2 (n.level + 1) (n.load / 4))
    (.leaf n.box.quad3 (n.level + 1) (n.load / 4))

/-- `Node.can_merge(merge_threshold)`: false on a leaf; false if any child
has children of its own; otherwise the children's total load must be
strictly below the threshold. -/
def Node.can_merge (n : Node) (merge_threshold : ℚ) : Bool :=
  match n with
  | .leaf _ _ _ => false
  | .inner _ _ _ c0 c1 c2 c3 =>
    if c0.is_leaf && c1.is_leaf && c2.is_leaf && c3.is_leaf then
      decide (c0.load + c1.load + c2.load + c3.load < merge_threshold)
    else false

/-- `Node.merge`: drop the children and take their total load.  (The Python
method is only ever invoked on nodes that do have children; on a leaf we
leave the node unchanged.) -/
def Node.merge : Node → Node
  | .leaf b l ld => .leaf b l ld
  | .inner b l _ c0 c1 c2 c3 => .leaf b l (c0.load + c1.load + c2.load + c3.load)

/-- `FractalGrid._find_leaf`: descend into the first child (in the order
`0,1,2,3` of the children dict) containing `(x, y)`; if no child contains
the point, stop and return the current node. -/
def find_leaf : Node → ℚ → ℚ → Node
  | .leaf b l ld, _, _ => .leaf b l ld
  | .inner b l ld c0 c1 c2 c3, x, y =>
    if c0.contains x y then find_leaf c0 x y
    else if c1.contains x y then find_leaf c1 x y
    else if c2.contains x y then find_leaf c2 x y
    else if c3.contains x y then find_leaf c3 x y
    else .inner b l ld c0 c1 c2 c3

/-- `node.load += 1.0` on one node. -/
def Node.addOne : Node → Node
  | .leaf b l ld => .leaf b l (ld + 1)
  | .inner b l ld c0 c1 c2 c3 => .inner b l (ld + 1) c0 c1 c2 c3

/-- The mutation performed by `FractalGrid.get`: `_find_leaf` followed by
`leaf.load += 1.0`, expressed as a rebuild of the tree along the descent
path.  The fallback case of `_find_leaf` increments the current node even
when it is internal. -/
def record : Node → ℚ → ℚ → Node
  | .leaf b l ld, _, _ => .leaf b l (ld + 1)
  | .inner b l ld c0 c1 c2 c3, x, y =>
    if c0.contains x y then .inner b l ld (record c0 x y) c1 c2 c3
    else if c1.contains x y then .inner b l ld c0 (record c1 x y) c2 c3
    else if c2.contains x y then .inner b l ld c0 c1 (record c2 x y) c3
    else if c3.contains x y then .inner b l ld c0 c1 c2 (record c3 x y)
    else .inner b l (ld + 1) c0 c1 c2 c3

/-- Constructor configuration of `FractalGrid` that the claims exercise. -/
structure Config where
  max_level : ℕ
  split_threshold : ℚ
  merge_threshold : ℚ

/-- `FractalGrid._rebalance`: subdivide iff
`load > split_threshold and level < max_level and is_leaf()`. -/
def rebalance (cfg : Config) (n : Node) : Node :=
  if decide (n.load > cfg.split_threshold) && decide (n.level < cfg.max_level)
      && n.is_leaf then
    n.subdivide
  else n

/-- The mutation performed by `FractalGrid.set`: `_find_leaf`, then
`leaf.load += 1.0`, then `_rebalance(leaf)` on that node in place. -/
def setRecord (cfg : Config) : Node → ℚ → ℚ → Node
  | .leaf b l ld, _, _ => rebalance cfg (.leaf b l (ld + 1))
  | .inner b l ld c0 c1 c2 c3, x, y =>
    if c0.contains x y then .inner b l ld (setRecord cfg c0 x y) c1 c2 c3
    else if c1.contains x y then .inner b l ld c0 (setRecord cfg c1 x y) c2 c3
    else if c2.contains x y then .inner b l ld c0 c1 (setRecord cfg c2 x y) c3
    else if c3.contains x y then .inner b l ld c0 c1 c2 (setRecord cfg c3 x y)
    else rebalance cfg (.inner b l (ld + 1) c0 c1 c2 c3)

/-- `validate_coord`: accepts exactly `0 ≤ x < 1`. -/
def valid_coord (x : ℚ) : Bool := decide (0 ≤ x) && decide (x < 1)

/-- `FractalGrid.get`: validate both coordinates (raising, i.e. `none`,
leaves the tree untouched); otherwise increment the found node's load and
return its updated `load` together with the updated tree. -/
def FractalGrid.get (t : Node) (x y : ℚ) : Option ℚ × Node :=
  if valid_coord x && valid_coord y then
    (some (Node.addOne (find_leaf t x y)).load, record t x y)
  else (none, t)

/-- `FractalGrid.set`: same validation and increment as `get`, followed by
the local rebalance at the found node. -/
def FractalGrid.set (cfg : Config) (t : Node) (x y : ℚ) : Option Unit × Node :=
  if valid_coord x && valid_coord y then (some (), setRecord cfg t x y)
  else (none, t)

/-- `FractalGrid.decay_load`: multiply every leaf's load by the factor and
clamp results below `1e-6` to exactly `0`; internal nodes only recurse. -/
def decay_load (f : ℚ) : Node → Node
  | .leaf b l ld =>
    let ld' := ld * f
    .leaf b l (if ld' < 1 / 1000000 then 0 else ld')
  | .inner b l ld c0 c1 c2 c3 =>
    .inner b l ld (decay_load f c0) (decay_load f c1) (decay_load f c2) (decay_load f c3)

/-- `FractalGrid._merge_repeatedly`: post-order sweep — recurse into all
four children first, then merge the node itself if `can_merge` holds on
the updated children. -/
def merge_repeatedly (mt : ℚ) : Node → Node
  | .leaf b l ld => .leaf b l ld
  | .inner b l ld c0 c1 c2 c3 =>
    let n' := Node.inner b l ld (merge_repeatedly mt c0) (merge_repeatedly mt c1)
      (merge_repeatedly mt c2) (merge_repeatedly mt c3)
    if n'.can_merge mt then n'.merge else n'

/-- `FractalGrid.periodic_rebalance`: the merge sweep from the root with the
grid's configured merge threshold. -/
def FractalGrid.periodic_rebalance (cfg : Config) (t : Node) : Node :=
  merge_repeatedly cfg.merge_threshold t

/-- The default root bounds `(0, 0, 1, 1)` of the constructor. -/
def unitBox : Box := ⟨0, 0, 1, 1⟩

/-- The root of a freshly constructed `FractalGrid()`: a leaf over the unit
square at level `0` with load `0`. -/
def initRoot : Node := .leaf unitBox 0 0

/-- Both coordinates pass `validate_coord`. -/
def validPt (x y : ℚ) : Prop := 0 ≤ x ∧ x < 1 ∧ 0 ≤ y ∧ y < 1

instance (x y : ℚ) : Decidable (validPt x y) :=
  inferInstanceAs (Decidable (0 ≤ x ∧ x < 1 ∧ 0 ≤ y ∧ y < 1))

/-- Trees reachable from a fresh `FractalGrid()` by the public operations
(`get`, `set`, `periodic_rebalance`, `decay_load`; `get_leaves` does not
mutate) with coordinates that pass validation. -/
inductive Reachable (cfg : Config) : Node → Prop
  | init : Reachable cfg initRoot
  | get_step {t : Node} {x y : ℚ} :
      Reachable cfg t → validPt x y → Reachable cfg (record t x y)
  | set_step {t : Node} {x y : ℚ} :
      Reachable cfg t → validPt x y → Reachable cfg (setRecord cfg t x y)
  | rebalance_step {t : Node} :
      Reachable cfg t → Reachable cfg (merge_repeatedly cfg.merge_threshold t)
  | decay_step {t : Node} (f : ℚ) :
      Reachable cfg t → Reachable cfg (decay_load f t)

/-- Geometrically proper bounds: strictly positive extent on both axes. -/
def properBox (b : Box) : Prop := b.x_min < b.x_max ∧ b.y_min < b.y_max

/-- Structural well-formedness: bounds are proper and every internal node's
children carry exactly the four quadrant bounds of their parent. -/
def WF : Node → Prop
  | .leaf b _ _ => properBox b
  | .inner b _ _ c0 c1 c2 c3 =>
    properBox b ∧
    c0.box = b.quad0 ∧ c1.box = b.quad1 ∧ c2.box = b.quad2 ∧ c3.box = b.quad3 ∧
    WF c0 ∧ WF c1 ∧ WF c2 ∧ WF c3

/-- The load invariant of the spec: every load is nonnegative and internal
nodes carry load exactly `0`. -/
def LoadInv : Node → Prop
  | .leaf _ _ ld => 0 ≤ ld
  | .inner _ _ ld c0 c1 c2 c3 => ld = 0 ∧ LoadInv c0 ∧ LoadInv c1 ∧ LoadInv c2 ∧ LoadInv c3

/-- Every node in the tree has level at most `m`. -/
def levelBounded (m : ℕ) : Node → Prop
  | .leaf _ l _ => l ≤ m
  | .inner _ l _ c0 c1 c2 c3 =>
    l ≤ m ∧ levelBounded m c0 ∧ levelBounded m c1 ∧ levelBounded m c2 ∧ levelBounded m c3

/-!  ## Basic lemmas about the embedding -/

@[simp] theorem Node.box_leaf (b : Box) (l : ℕ) (ld : ℚ) : (Node.leaf b l ld).box = b := rfl

@[simp] theorem Node.box_inner (b : Box) (l : ℕ) (ld : ℚ) (c0 c1 c2 c3 : Node) :
    (Node.inner b l ld c0 c1 c2 c3).box = b := rfl

@[simp] theorem Node.load_leaf (b : Box) (l : ℕ) (ld : ℚ) : (Node.leaf b l ld).load = ld := rfl

@[simp] theorem Node.load_inner (b : Box) (l : ℕ) (ld : ℚ) (c0 c1 c2 c3 : Node) :
    (Node.inner b l ld c0 c1 c2 c3).load = ld := rfl

@[simp] theorem Node.level_leaf (b : Box) (l : ℕ) (ld : ℚ) : (Node.leaf b l ld).level = l := rfl

@[simp] theorem Node.level_inner (b : Box) (l : ℕ) (ld : ℚ) (c0 c1 c2 c3 : Node) :
    (Node.inner b l ld c0 c1 c2 c3).level = l := rfl

@[simp] theorem Node.is_leaf_leaf (b : Box) (l : ℕ) (ld : ℚ) :
    (Node.leaf b l ld).is_leaf = true := rfl

@[simp] theorem Node.is_leaf_inner (b : Box) (l : ℕ) (ld : ℚ) (c0 c1 c2 c3 : Node) :
    (Node.inner b l ld c0 c1 c2 c3).is_leaf = false := rfl

theorem Box.containsPt_iff {b : Box} {x y : ℚ} :
    b.containsPt x y = true ↔ b.x_min ≤ x ∧ x < b.x_max ∧ b.y_min ≤ y ∧ y < b.y_max := by
  simp [Box.containsPt, and_assoc]

theorem Node.contains_eq (n : Node) (x y : ℚ) : n.contains x y = n.box.containsPt x y := rfl

/-- A point of a box lies in one of its four quadrants. -/
theorem quad_cover {b : Box} {x y : ℚ} (h : b.containsPt x y = true) :
    b.quad0.containsPt x y = true ∨ b.quad1.containsPt x y = true ∨
    b.quad2.containsPt x y = true ∨ b.quad3.containsPt x y = true := by
  rw [Box.containsPt_iff] at h
  obtain ⟨hx1, hx2, hy1, hy2⟩ := h
  rcases lt_or_le x b.midX with hx | hx <;> rcases lt_or_le y b.midY with hy | hy
  · exact Or.inl (Box.containsPt_iff.mpr ⟨hx1, hx, hy1, hy⟩)
  · exact Or.inr (Or.inr (Or.inl (Box.containsPt_iff.mpr ⟨hx1, hx, hy, hy2⟩)))
  · exact Or.inr (Or.inl (Box.containsPt_iff.mpr ⟨hx, hx2, hy1, hy⟩))
  · exact Or.inr (Or.inr (Or.inr (Box.containsPt_iff.mpr ⟨hx, hx2, hy, hy2⟩)))

theorem properBox_quad0 {b : Box} (h : properBox b) : properBox b.quad0 := by
  obtain ⟨h1, h2⟩ := h
  constructor <;> · simp only [Box.quad0, Box.midX, Box.midY]; linarith

theorem properBox_quad1 {b : Box} (h : properBox b) : properBox b.quad1 := by
  obtain ⟨h1, h2⟩ := h
  constructor <;> · simp only [Box.quad1, Box.midX, Box.midY]; linarith

theorem properBox_quad2 {b : Box} (h : properBox b) : properBox b.quad2 := by
  obtain ⟨h1, h2⟩ := h
  constructor <;> · simp only [Box.quad2, Box.midX, Box.midY]; linarith

theorem properBox_quad3 {b : Box} (h : properBox b) : properBox b.quad3 := by
  obtain ⟨h1, h2⟩ := h
  constructor <;> · simp only [Box.quad3, Box.midX, Box.midY]; linarith

/-!  ## The operations do not move or resize the node they are applied to -/

theorem record_box (x y : ℚ) (t : Node) : (record t x y).box = t.box := by
  cases t with
  | leaf b l ld => rfl
  | inner b l ld c0 c1 c2 c3 =>
    simp only [record]
    split
    · rfl
    split
    · rfl
    split
    · rfl
    split
    · rfl
    · rfl

theorem rebalance_box (cfg : Config) (n : Node) : (rebalance cfg n).box = n.box := by
  unfold rebalance
  split
  · rfl
  · rfl

theorem setRecord_box (cfg : Config) (x y : ℚ) (t : Node) :
    (setRecord cfg t x y).box = t.box := by
  cases t with
  | leaf b l ld => rw [setRecord, rebalance_box]; rfl
  | inner b l ld c0 c1 c2 c3 =>
    simp only [setRecord]
    split
    · rfl
    split
    · rfl
    split
    · rfl
    split
    · rfl
    · rw [rebalance_box]; rfl

theorem decay_box (f : ℚ) (t : Node) : (decay_load f t).box = t.box := by
  cases t <;> rfl

theorem merge_box (t : Node) : t.merge.box = t.box := by
  cases t <;> rfl

theorem mergeStep_box (mt : ℚ) (t : Node) :
    (if t.can_merge mt then t.merge else t).box = t.box := by
  split
  · exact merge_box t
  · rfl

theorem merge_repeatedly_box (mt : ℚ) (t : Node) : (merge_repeatedly mt t).box = t.box := by
  cases t with
  | leaf b l ld => rfl
  | inner b l ld c0 c1 c2 c3 => rw [merge_repeatedly, mergeStep_box]; rfl

theorem record_contains (x y x' y' : ℚ) (t : Node) :
    (record t x y).contains x' y' = t.contains x' y' := by
  rw [Node.contains_eq, Node.contains_eq, record_box]

/-!  ## `_find_leaf` -/

/-- The descent only ever moves into a child that contains the point, so it
never leaves the region containing `(x, y)` — also in the fallback case. -/
theorem find_leaf_contains (x y : ℚ) :
    ∀ t : Node, t.contains x y = true → (find_leaf t x y).contains x y = true := by
  intro t
  induction t with
  | leaf b l ld => intro h; exact h
  | inner b l ld c0 c1 c2 c3 ih0 ih1 ih2 ih3 =>
    intro h
    simp only [find_leaf]
    by_cases h0 : c0.contains x y = true
    · rw [if_pos h0]; exact ih0 h0
    rw [if_neg h0]
    by_cases h1 : c1.contains x y = true
    · rw [if_pos h1]; exact ih1 h1
    rw [if_neg h1]
    by_cases h2 : c2.contains x y = true
    · rw [if_pos h2]; exact ih2 h2
    rw [if_neg h2]
    by_cases h3 : c3.contains x y = true
    · rw [if_pos h3]; exact ih3 h3
    rw [if_neg h3]
    exact h

/-- On a well-formed tree the fallback of `_find_leaf` is unreachable: the
children tile their parent exactly, so the descent ends at a leaf. -/
theorem find_leaf_is_leaf (x y : ℚ) :
    ∀ t : Node, WF t → t.contains x y = true → (find_leaf t x y).is_leaf = true := by
  intro t
  induction t with
  | leaf b l ld => intro _ _; rfl
  | inner b l ld c0 c1 c2 c3 ih0 ih1 ih2 ih3 =>
    intro hw h
    obtain ⟨hb, e0, e1, e2, e3, w0, w1, w2, w3⟩ := hw
    simp only [find_leaf]
    by_cases h0 : c0.contains x y = true
    · rw [if_pos h0]; exact ih0 w0 h0
    rw [if_neg h0]
    by_cases h1 : c1.contains x y = true
    · rw [if_pos h1]; exact ih1 w1 h1
    rw [if_neg h1]
    by_cases h2 : c2.contains x y = true
    · rw [if_pos h2]; exact ih2 w2 h2
    rw [if_neg h2]
    by_cases h3 : c3.contains x y = true
    · rw [if_pos h3]; exact ih3 w3 h3
    exfalso
    rcases quad_cover (b := b) h with hq | hq | hq | hq
    · exact h0 (by rw [Node.contains_eq, e0]; exact hq)
    · exact h1 (by rw [Node.contains_eq, e1]; exact hq)
    · exact h2 (by rw [Node.contains_eq, e2]; exact hq)
    · exact h3 (by rw [Node.contains_eq, e3]; exact hq)

/-- `get` bumps exactly the node `_find_leaf` reaches: searching again in the
updated tree finds the same node with its load incremented. -/
theorem find_leaf_record (x y : ℚ) :
    ∀ t : Node, find_leaf (record t x y) x y = Node.addOne (find_leaf t x y) := by
  intro t
  induction t with
  | leaf b l ld => rfl
  | inner b l ld c0 c1 c2 c3 ih0 ih1 ih2 ih3 =>
    simp only [record]
    by_cases h0 : c0.contains x y = true
    · rw [if_pos h0]
      simp only [find_leaf, record_contains, if_pos h0]
      exact ih0
    rw [if_neg h0]
    by_cases h1 : c1.contains x y = true
    · rw [if_pos h1]
      simp only [find_leaf, record_contains, if_neg h0, if_pos h1]
      exact ih1
    rw [if_neg h1]
    by_cases h2 : c2.contains x y = true
    · rw [if_pos h2]
      simp only [find_leaf, record_contains, if_neg h0, if_neg h1, if_pos h2]
      exact ih2
    rw [if_neg h2]
    by_cases h3 : c3.contains x y = true
    · rw [if_pos h3]
      simp only [find_leaf, record_contains, if_neg h0, if_neg h1, if_neg h2, if_pos h3]
      exact ih3
    rw [if_neg h3]
    simp only [find_leaf, if_neg h0, if_neg h1, if_neg h2, if_neg h3]
    rfl

/-!  ## Preservation of the structural invariant `WF` -/

theorem record_WF (x y : ℚ) : ∀ t : Node, WF t → WF (record t x y) := by
  intro t
  induction t with
  | leaf b l ld => intro hw; exact hw
  | inner b l ld c0 c1 c2 c3 ih0 ih1 ih2 ih3 =>
    intro hw
    obtain ⟨hb, e0, e1, e2, e3, w0, w1, w2, w3⟩ := hw
    simp only [record]
    by_cases h0 : c0.contains x y = true
    · rw [if_pos h0]
      exact ⟨hb, by rw [record_box]; exact e0, e1, e2, e3, ih0 w0, w1, w2, w3⟩
    rw [if_neg h0]
    by_cases h1 : c1.contains x y = true
    · rw [if_pos h1]
      exact ⟨hb, e0, by rw [record_box]; exact e1, e2, e3, w0, ih1 w1, w2, w3⟩
    rw [if_neg h1]
    by_cases h2 : c2.contains x y = true
    · rw [if_pos h2]
      exact ⟨hb, e0, e1, by rw [record_box]; exact e2, e3, w0, w1, ih2 w2, w3⟩
    rw [if_neg h2]
    by_cases h3 : c3.contains x y = true
    · rw [if_pos h3]
      exact ⟨hb, e0, e1, e2, by rw [record_box]; exact e3, w0, w1, w2, ih3 w3⟩
    rw [if_neg h3]
    exact ⟨hb, e0, e1, e2, e3, w0, w1, w2, w3⟩

theorem subdivide_WF_of_leaf (b : Box) (l : ℕ) (ld : ℚ) (hb : properBox b) :
    WF (Node.leaf b l ld).subdivide :=
  ⟨hb, rfl, rfl, rfl, rfl, properBox_quad0 hb, properBox_quad1 hb,
    properBox_quad2 hb, properBox_quad3 hb⟩

theorem rebalance_WF (cfg : Config) : ∀ n : Node, WF n → WF (rebalance cfg n) := by
  intro n hw
  unfold rebalance
  split
  · rename_i h
    cases n with
    | leaf b l ld => exact subdivide_WF_of_leaf b l ld hw
    | inner b l ld c0 c1 c2 c3 => simp at h
  · exact hw

theorem setRecord_WF (cfg : Config) (x y : ℚ) : ∀ t : Node, WF t → WF (setRecord cfg t x y) := by
  intro t
  induction t with
  | leaf b l ld => intro hw; exact rebalance_WF cfg _ hw
  | inner b l ld c0 c1 c2 c3 ih0 ih1 ih2 ih3 =>
    intro hw
    obtain ⟨hb, e0, e1, e2, e3, w0, w1, w2, w3⟩ := hw
    simp only [setRecord]
    by_cases h0 : c0.contains x y = true
    · rw [if_pos h0]
      exact ⟨hb, by rw [setRecord_box]; exact e0, e1, e2, e3, ih0 w0, w1, w2, w3⟩
    rw [if_neg h0]
    by_cases h1 : c1.contains x y = true
    · rw [if_pos h1]
      exact ⟨hb, e0, by rw [setRecord_box]; exact e1, e2, e3, w0, ih1 w1, w2, w3⟩
    rw [if_neg h1]
    by_cases h2 : c2.contains x y = true
    · rw [if_pos h2]
      exact ⟨hb, e0, e1, by rw [setRecord_box]; exact e2, e3, w0, w1, ih2 w2, w3⟩
    rw [if_neg h2]
    by_cases h3 : c3.contains x y = true
    · rw [if_pos h3]
      exact ⟨hb, e0, e1, e2, by rw [setRecord_box]; exact e3, w0, w1, w2, ih3 w3⟩
    rw [if_neg h3]
    exact rebalance_WF cfg _ ⟨hb, e0, e1, e2, e3, w0, w1, w2, w3⟩

theorem decay_WF (f : ℚ) : ∀ t : Node, WF t → WF (decay_load f t) := by
  intro t
  induction t with
  | leaf b l ld => intro hw; exact hw
  | inner b l ld c0 c1 c2 c3 ih0 ih1 ih2 ih3 =>
    intro hw
    obtain ⟨hb, e0, e1, e2, e3, w0, w1, w2, w3⟩ := hw
    exact ⟨hb, by rw [decay_box]; exact e0, by rw [decay_box]; exact e1,
      by rw [decay_box]; exact e2, by rw [decay_box]; exact e3,
      ih0 w0, ih1 w1, ih2 w2, ih3 w3⟩

theorem merge_repeatedly_WF (mt : ℚ) : ∀ t : Node, WF t → WF (merge_repeatedly mt t) := by
  intro t
  induction t with
  | leaf b l ld => intro hw; exact hw
  | inner b l ld c0 c1 c2 c3 ih0 ih1 ih2 ih3 =>
    intro hw
    obtain ⟨hb, e0, e1, e2, e3, w0, w1, w2, w3⟩ := hw
    rw [merge_repeatedly]
    split
    · cases hm : merge_repeatedly mt c0 <;> exact hb
    · exact ⟨hb, by rw [merge_repeatedly_box]; exact e0, by rw [merge_repeatedly_box]; exact e1,
        by rw [merge_repeatedly_box]; exact e2, by rw [merge_repeatedly_box]; exact e3,
        ih0 w0, ih1 w1, ih2 w2, ih3 w3⟩

/-!  ## Preservation of the load invariant -/

theorem LoadInv.load_nonneg : ∀ {n : Node}, LoadInv n → 0 ≤ n.load := by
  intro n h
  cases n with
  | leaf b l ld => exact h
  | inner b l ld c0 c1 c2 c3 => rw [Node.load_inner, h.1]

theorem record_LoadInv (x y : ℚ) :
    ∀ t : Node, WF t → t.contains x y = true → LoadInv t → LoadInv (record t x y) := by
  intro t
  induction t with
  | leaf b l ld =>
    intro _ _ hl
    have h : (0 : ℚ) ≤ ld := hl
    show (0 : ℚ) ≤ ld + 1
    linarith
  | inner b l ld c0 c1 c2 c3 ih0 ih1 ih2 ih3 =>
    intro hw hc hl
    obtain ⟨hb, e0, e1, e2, e3, w0, w1, w2, w3⟩ := hw
    obtain ⟨hz, l0, l1, l2, l3⟩ := hl
    simp only [record]
    by_cases h0 : c0.contains x y = true
    · rw [if_pos h0]; exact ⟨hz, ih0 w0 h0 l0, l1, l2, l3⟩
    rw [if_neg h0]
    by_cases h1 : c1.contains x y = true
    · rw [if_pos h1]; exact ⟨hz, l0, ih1 w1 h1 l1, l2, l3⟩
    rw [if_neg h1]
    by_cases h2 : c2.contains x y = true
    · rw [if_pos h2]; exact ⟨hz, l0, l1, ih2 w2 h2 l2, l3⟩
    rw [if_neg h2]
    by_cases h3 : c3.contains x y = true
    · rw [if_pos h3]; exact ⟨hz, l0, l1, l2, ih3 w3 h3 l3⟩
    exfalso
    rcases quad_cover (b := b) hc with hq | hq | hq | hq
    · exact h0 (by rw [Node.contains_eq, e0]; exact hq)
    · exact h1 (by rw [Node.contains_eq, e1]; exact hq)
    · exact h2 (by rw [Node.contains_eq, e2]; exact hq)
    · exact h3 (by rw [Node.contains_eq, e3]; exact hq)

theorem rebalance_LoadInv_leaf (cfg : Config) (b : Box) (l : ℕ) (ld : ℚ) (h : 0 ≤ ld) :
    LoadInv (rebalance cfg (Node.leaf b l ld)) := by
  unfold rebalance
  split
  · refine ⟨rfl, ?_, ?_, ?_, ?_⟩ <;> · show (0 : ℚ) ≤ ld / 4; linarith
  · exact h

theorem setRecord_LoadInv (cfg : Config) (x y : ℚ) :
    ∀ t : Node, WF t → t.contains x y = true → LoadInv t → LoadInv (setRecord cfg t x y) := by
  intro t
  induction t with
  | leaf b l ld =>
    intro _ _ hl
    have h : (0 : ℚ) ≤ ld := hl
    exact rebalance_LoadInv_leaf cfg b l (ld + 1) (by linarith)
  | inner b l ld c0 c1 c2 c3 ih0 ih1 ih2 ih3 =>
    intro hw hc hl
    obtain ⟨hb, e0, e1, e2, e3, w0, w1, w2, w3⟩ := hw
    obtain ⟨hz, l0, l1, l2, l3⟩ := hl
    simp only [setRecord]
    by_cases h0 : c0.contains x y = true
    · rw [if_pos h0]; exact ⟨hz, ih0 w0 h0 l0, l1, l2, l3⟩
    rw [if_neg h0]
    by_cases h1 : c1.contains x y = true
    · rw [if_pos h1]; exact ⟨hz, l0, ih1 w1 h1 l1, l2, l3⟩
    rw [if_neg h1]
    by_cases h2 : c2.contains x y = true
    · rw [if_pos h2]; exact ⟨hz, l0, l1, ih2 w2 h2 l2, l3⟩
    rw [if_neg h2]
    by_cases h3 : c3.contains x y = true
    · rw [if_pos h3]; exact ⟨hz, l0, l1, l2, ih3 w3 h3 l3⟩
    exfalso
    rcases quad_cover (b := b) hc with hq | hq | hq | hq
    · exact h0 (by rw [Node.contains_eq, e0]; exact hq)
    · exact h1 (by rw [Node.contains_eq, e1]; exact hq)
    · exact h2 (by rw [Node.contains_eq, e2]; exact hq)
    · exact h3 (by rw [Node.contains_eq, e3]; exact hq)

theorem decay_LoadInv (f : ℚ) : ∀ t : Node, LoadInv t → LoadInv (decay_load f t) := by
  intro t
  induction t with
  | leaf b l ld =>
    intro _
    show LoadInv (Node.leaf b l (if ld * f < 1 / 1000000 then 0 else ld * f))
    by_cases h : ld * f < 1 / 1000000
    · rw [if_pos h]; exact le_refl 0
    · rw [if_neg h]
      show (0 : ℚ) ≤ ld * f
      linarith [not_lt.mp h]
  | inner b l ld c0 c1 c2 c3 ih0 ih1 ih2 ih3 =>
    intro hl
    obtain ⟨hz, l0, l1, l2, l3⟩ := hl
    exact ⟨hz, ih0 l0, ih1 l1, ih2 l2, ih3 l3⟩

theorem merge_repeatedly_LoadInv (mt : ℚ) :
    ∀ t : Node, LoadInv t → LoadInv (merge_repeatedly mt t) := by
  intro t
  induction t with
  | leaf b l ld => intro hl; exact hl
  | inner b l ld c0 c1 c2 c3 ih0 ih1 ih2 ih3 =>
    intro hl
    obtain ⟨hz, l0, l1, l2, l3⟩ := hl
    rw [merge_repeatedly]
    split
    · show (0 : ℚ) ≤ (merge_repeatedly mt c0).load + (merge_repeatedly mt c1).load +
        (merge_repeatedly mt c2).load + (merge_repeatedly mt c3).load
      have n0 := LoadInv.load_nonneg (ih0 l0)
      have n1 := LoadInv.load_nonneg (ih1 l1)
      have n2 := LoadInv.load_nonneg (ih2 l2)
      have n3 := LoadInv.load_nonneg (ih3 l3)
      linarith
    · exact ⟨hz, ih0 l0, ih1 l1, ih2 l2, ih3 l3⟩

/-!  ## Preservation of the level bound -/

theorem record_levelBounded (m : ℕ) (x y : ℚ) :
    ∀ t : Node, levelBounded m t → levelBounded m (record t x y) := by
  intro t
  induction t with
  | leaf b l ld => intro h; exact h
  | inner b l ld c0 c1 c2 c3 ih0 ih1 ih2 ih3 =>
    intro h
    obtain ⟨hl, h0, h1, h2, h3⟩ := h
    simp only [record]
    by_cases hc0 : c0.contains x y = true
    · rw [if_pos hc0]; exact ⟨hl, ih0 h0, h1, h2, h3⟩
    rw [if_neg hc0]
    by_cases hc1 : c1.contains x y = true
    · rw [if_pos hc1]; exact ⟨hl, h0, ih1 h1, h2, h3⟩
    rw [if_neg hc1]
    by_cases hc2 : c2.contains x y = true
    · rw [if_pos hc2]; exact ⟨hl, h0, h1, ih2 h2, h3⟩
    rw [if_neg hc2]
    by_cases hc3 : c3.contains x y = true
    · rw [if_pos hc3]; exact ⟨hl, h0, h1, h2, ih3 h3⟩
    rw [if_neg hc3]
    exact ⟨hl, h0, h1, h2, h3⟩

theorem rebalance_levelBounded (cfg : Config) :
    ∀ n : Node, levelBounded cfg.max_level n → levelBounded cfg.max_level (rebalance cfg n) := by
  intro n h
  unfold rebalance
  split
  · rename_i hg
    simp only [Bool.and_eq_true, decide_eq_true_eq] at hg
    obtain ⟨⟨-, hlev⟩, hleaf⟩ := hg
    cases n with
    | leaf b l ld =>
      have hm : l < cfg.max_level := hlev
      exact ⟨le_of_lt hm, hm, hm, hm, hm⟩
    | inner b l ld c0 c1 c2 c3 => simp at hleaf
  · exact h

theorem setRecord_levelBounded (cfg : Config) (x y : ℚ) :
    ∀ t : Node, levelBounded cfg.max_level t → levelBounded cfg.max_level (setRecord cfg t x y) := by
  intro t
  induction t with
  | leaf b l ld => intro h; exact rebalance_levelBounded cfg _ h
  | inner b l ld c0 c1 c2 c3 ih0 ih1 ih2 ih3 =>
    intro h
    obtain ⟨hl, h0, h1, h2, h3⟩ := h
    simp only [setRecord]
    by_cases hc0 : c0.contains x y = true
    · rw [if_pos hc0]; exact ⟨hl, ih0 h0, h1, h2, h3⟩
    rw [if_neg hc0]
    by_cases hc1 : c1.contains x y = true
    · rw [if_pos hc1]; exact ⟨hl, h0, ih1 h1, h2, h3⟩
    rw [if_neg hc1]
    by_cases hc2 : c2.contains x y = true
    · rw [if_pos hc2]; exact ⟨hl, h0, h1, ih2 h2, h3⟩
    rw [if_neg hc2]
    by_cases hc3 : c3.contains x y = true
    · rw [if_pos hc3]; exact ⟨hl, h0, h1, h2, ih3 h3⟩
    rw [if_neg hc3]
    exact rebalance_levelBounded cfg _ ⟨hl, h0, h1, h2, h3⟩

theorem decay_levelBounded (m : ℕ) (f : ℚ) :
    ∀ t : Node, levelBounded m t → levelBounded m (decay_load f t) := by
  intro t
  induction t with
  | leaf b l ld => intro h; exact h
  | inner b l ld c0 c1 c2 c3 ih0 ih1 ih2 ih3 =>
    intro h
    obtain ⟨hl, h0, h1, h2, h3⟩ := h
    exact ⟨hl, ih0 h0, ih1 h1, ih2 h2, ih3 h3⟩

theorem merge_repeatedly_levelBounded (m : ℕ) (mt : ℚ) :
    ∀ t : Node, levelBounded m t → levelBounded m (merge_repeatedly mt t) := by
  intro t
  induction t with
  | leaf b l ld => intro h; exact h
  | inner b l ld c0 c1 c2 c3 ih0 ih1 ih2 ih3 =>
    intro h
    obtain ⟨hl, h0, h1, h2, h3⟩ := h
    rw [merge_repeatedly]
    split
    · exact hl
    · exact ⟨hl, ih0 h0, ih1 h1, ih2 h2, ih3 h3⟩

/-!  ## Invariants of every reachable tree -/

theorem reachable_box {cfg : Config} {t : Node} (h : Reachable cfg t) : t.box = unitBox := by
  induction h with
  | init => rfl
  | get_step _ _ ih => rw [record_box]; exact ih
  | set_step _ _ ih => rw [setRecord_box]; exact ih
  | rebalance_step _ ih => rw [merge_repeatedly_box]; exact ih
  | decay_step f _ ih => rw [decay_box]; exact ih

theorem contains_of_validPt {t : Node} (hb : t.box = unitBox) {x y : ℚ} (hv : validPt x y) :
    t.contains x y = true := by
  obtain ⟨h1, h2, h3, h4⟩ := hv
  rw [Node.contains_eq, hb]
  exact Box.containsPt_iff.mpr ⟨h1, h2, h3, h4⟩

theorem reachable_WF {cfg : Config} {t : Node} (h : Reachable cfg t) : WF t := by
  induction h with
  | init => exact ⟨by norm_num [unitBox], by norm_num [unitBox]⟩
  | get_step _ _ ih => exact record_WF _ _ _ ih
  | set_step _ _ ih => exact setRecord_WF _ _ _ _ ih
  | rebalance_step _ ih => exact merge_repeatedly_WF _ _ ih
  | decay_step f _ ih => exact decay_WF _ _ ih

theorem reachable_LoadInv {cfg : Config} {t : Node} (h : Reachable cfg t) : LoadInv t := by
  induction h with
  | init => exact le_refl 0
  | get_step hr hv ih =>
    exact record_LoadInv _ _ _ (reachable_WF hr) (contains_of_validPt (reachable_box hr) hv) ih
  | set_step hr hv ih =>
    exact setRecord_LoadInv _ _ _ _ (reachable_WF hr) (contains_of_validPt (reachable_box hr) hv) ih
  | rebalance_step _ ih => exact merge_repeatedly_LoadInv _ _ ih
  | decay_step f _ ih => exact decay_LoadInv _ _ ih

theorem reachable_levelBounded {cfg : Config} {t : Node} (h : Reachable cfg t) :
    levelBounded cfg.max_level t := by
  induction h with
  | init => exact Nat.zero_le _
  | get_step _ _ ih => exact record_levelBounded _ _ _ _ ih
  | set_step _ _ ih => exact setRecord_levelBounded _ _ _ _ ih
  | rebalance_step _ ih => exact merge_repeatedly_levelBounded _ _ _ ih
  | decay_step f _ ih => exact decay_levelBounded _ _ _ ih

/-!  ## Claims C2 and C3 -/

/-- C2: in every tree reachable from a freshly constructed `FractalGrid` by
any sequence of the public operations with valid coordinates, every node's
load is nonnegative and every internal node's load is exactly `0` (this is
`LoadInv`); in particular, the node whose load `get`/`set` increments — the
node `_find_leaf` returns — is never internal. -/
theorem C2_loads_nonneg_internal_zero (cfg : Config) (t : Node) (h : Reachable cfg t) :
    LoadInv t ∧ ∀ x y : ℚ, validPt x y → (find_leaf t x y).is_leaf = true :=
  ⟨reachable_LoadInv h, fun x y hv =>
    find_leaf_is_leaf x y t (reachable_WF h) (contains_of_validPt (reachable_box h) hv)⟩

/-- Witness for C2: the tree reached by one `set(0.5, 0.5)` on a fresh grid
with `max_level = 6`, `split_threshold = 5`, `merge_threshold = 2`, probed
at the valid point `(0.25, 0.75)`. -/
theorem C2_loads_nonneg_internal_zero_witness :
    LoadInv (setRecord ⟨6, 5, 2⟩ initRoot (1/2) (1/2)) ∧
      (find_leaf (setRecord ⟨6, 5, 2⟩ initRoot (1/2) (1/2)) (1/4) (3/4)).is_leaf = true := by
  have h := C2_loads_nonneg_internal_zero ⟨6, 5, 2⟩ _
    (Reachable.set_step (x := 1/2) (y := 1/2) Reachable.init (by norm_num [validPt]))
  exact ⟨h.1, h.2 (1/4) (3/4) (by norm_num [validPt])⟩

/-- C3: for every valid point `(x, y)` and every reachable tree, the node
`_find_leaf` returns contains `(x, y)` under the half-open containment
test — also when descent stops early at an internal node through the
no-matching-child fallback, because descent only ever moves into a child
containing the point. -/
theorem C3_find_leaf_contains_point (cfg : Config) (t : Node) (x y : ℚ)
    (h : Reachable cfg t) (hv : validPt x y) :
    (find_leaf t x y).contains x y = true :=
  find_leaf_contains x y t (contains_of_validPt (reachable_box h) hv)

/-- Witness for C3: the tree reached by one `set(0.5, 0.5)` on a fresh grid,
probed at `(0.5, 0.5)`. -/
theorem C3_find_leaf_contains_point_witness :
    (find_leaf (setRecord ⟨6, 5, 2⟩ initRoot (1/2) (1/2)) (1/2) (1/2)).contains
      (1/2) (1/2) = true :=
  C3_find_leaf_contains_point ⟨6, 5, 2⟩ _ (1/2) (1/2)
    (Reachable.set_step (x := 1/2) (y := 1/2) Reachable.init (by norm_num [validPt]))
    (by norm_num [validPt])

/-!  ## Claim C4 -/

/-- `(Node.addOne n).load` is the old load plus one. -/
theorem Node.addOne_load (n : Node) : n.addOne.load = n.load + 1 := by
  cases n <;> rfl

/-- The configuration of scenario A of the spec:
`split_threshold = 5`, `merge_threshold = 2`, `max_level = 6`. -/
def cfgA : Config := ⟨6, 5, 2⟩

/-- One `set(0.5, 0.5)` under `cfgA`. -/
def setHalf (t : Node) : Node := setRecord cfgA t (1/2) (1/2)

/-- C4: `_rebalance` subdivides only when the load strictly exceeds
`split_threshold` and the level is strictly below `max_level` (first
conjunct: it is the identity whenever that guard fails), hence no node of a
reachable tree has level above `max_level`; and on a fresh grid with
`split_threshold = 5`, `max_level = 6`, five calls of `set(0.5, 0.5)` leave
the root a leaf with load `5` while the sixth splits it, the four quadrant
children taking load `1.5` each and the root load dropping to `0`. -/
theorem C4_split_guard_level_bound :
    (∀ (cfg : Config) (n : Node),
      ¬(n.load > cfg.split_threshold ∧ n.level < cfg.max_level) → rebalance cfg n = n) ∧
    (∀ (cfg : Config) (t : Node), Reachable cfg t → levelBounded cfg.max_level t) ∧
    setHalf^[5] initRoot = Node.leaf unitBox 0 5 ∧
    setHalf^[6] initRoot = Node.inner unitBox 0 0
      (.leaf unitBox.quad0 1 (3/2)) (.leaf unitBox.quad1 1 (3/2))
      (.leaf unitBox.quad2 1 (3/2)) (.leaf unitBox.quad3 1 (3/2)) := by
  refine ⟨?_, fun cfg t h => reachable_levelBounded h, ?_, ?_⟩
  · intro cfg n hg
    have hcond : ¬(decide (n.load > cfg.split_threshold) && decide (n.level < cfg.max_level)
        && n.is_leaf) = true := by
      simp only [Bool.and_eq_true, decide_eq_true_eq]
      intro h
      exact hg ⟨h.1.1, h.1.2⟩
    unfold rebalance
    rw [if_neg hcond]
  · norm_num [Function.iterate_succ_apply, setHalf, setRecord, rebalance, initRoot, unitBox,
      cfgA, Node.subdivide]
  · norm_num [Function.iterate_succ_apply, setHalf, setRecord, rebalance, initRoot, unitBox,
      cfgA, Node.subdivide, Box.quad0, Box.quad1, Box.quad2, Box.quad3, Box.midX, Box.midY]

/-- Witness for C4: the guard conjunct applied to a leaf with load `3`
(below the threshold `5`), and the level bound at the tree reached by one
`set(0.5, 0.5)`. -/
theorem C4_split_guard_level_bound_witness :
    rebalance ⟨6, 5, 2⟩ (Node.leaf unitBox 0 3) = Node.leaf unitBox 0 3 ∧
    levelBounded 6 (setRecord ⟨6, 5, 2⟩ initRoot (1/2) (1/2)) := by
  constructor
  · exact C4_split_guard_level_bound.1 ⟨6, 5, 2⟩ _ (by norm_num)
  · exact C4_split_guard_level_bound.2.1 ⟨6, 5, 2⟩ _
      (Reachable.set_step (x := 1/2) (y := 1/2) Reachable.init (by norm_num [validPt]))

/-!  ## Claim C5 -/

/-- C5: `get` (and `set`, which validates identically) fails exactly on
coordinates outside `[0, 1)`; on failure the tree is untouched; on success
it increments the found node's load by one — the tree is updated so that the
search now finds the incremented node — and returns that updated load.
Concretely, `get(1.0, 0.5)` and `get(-0.1, 0.5)` fail while
`get(0.0, 0.999999)` succeeds returning load `1`. -/
theorem C5_validation (cfg : Config) (t : Node) (x y : ℚ) :
    ((FractalGrid.get t x y).1 = none ↔ ¬validPt x y) ∧
    ((FractalGrid.set cfg t x y).1 = none ↔ ¬validPt x y) ∧
    ((FractalGrid.get t x y).1 = none → (FractalGrid.get t x y).2 = t) ∧
    ((FractalGrid.set cfg t x y).1 = none → (FractalGrid.set cfg t x y).2 = t) ∧
    (validPt x y →
      (FractalGrid.get t x y).1 = some ((find_leaf t x y).load + 1) ∧
      (FractalGrid.get t x y).2 = record t x y ∧
      find_leaf (record t x y) x y = Node.addOne (find_leaf t x y)) ∧
    (FractalGrid.get initRoot 1 (1/2)).1 = none ∧
    (FractalGrid.get initRoot (-(1/10)) (1/2)).1 = none ∧
    (FractalGrid.get initRoot 0 (999999/1000000)).1 = some 1 := by
  have hval : (valid_coord x && valid_coord y) = true ↔ validPt x y := by
    simp [valid_coord, validPt, and_assoc]
  have hget : FractalGrid.get t x y =
      if validPt x y then (some ((find_leaf t x y).load + 1), record t x y) else (none, t) := by
    unfold FractalGrid.get
    by_cases hv : validPt x y
    · rw [if_pos (hval.mpr hv), if_pos hv, Node.addOne_load]
    · rw [if_neg (fun hb => hv (hval.mp hb)), if_neg hv]
  have hset : FractalGrid.set cfg t x y =
      if validPt x y then (some (), setRecord cfg t x y) else (none, t) := by
    unfold FractalGrid.set
    by_cases hv : validPt x y
    · rw [if_pos (hval.mpr hv), if_pos hv]
    · rw [if_neg (fun hb => hv (hval.mp hb)), if_neg hv]
  refine ⟨?_, ?_, ?_, ?_, ?_, ?_, ?_, ?_⟩
  · rw [hget]
    by_cases hv : validPt x y <;> simp [hv]
  · rw [hset]
    by_cases hv : validPt x y <;> simp [hv]
  · rw [hget]
    by_cases hv : validPt x y <;> simp [hv]
  · rw [hset]
    by_cases hv : validPt x y <;> simp [hv]
  · intro hv
    rw [hget, if_pos hv]
    exact ⟨rfl, rfl, find_leaf_record x y t⟩
  · norm_num [FractalGrid.get, valid_coord]
  · norm_num [FractalGrid.get, valid_coord]
  · norm_num [FractalGrid.get, valid_coord, find_leaf, initRoot, Node.addOne]

/-- Witness for C5: the success conjunct applied at the fresh root and the
valid point `(0.5, 0.5)`. -/
theorem C5_validation_witness :
    (FractalGrid.get initRoot (1/2) (1/2)).1 =
      some ((find_leaf initRoot (1/2) (1/2)).load + 1) ∧
    (FractalGrid.get initRoot (1/2) (1/2)).2 = record initRoot (1/2) (1/2) :=
  ⟨((C5_validation ⟨6, 5, 2⟩ initRoot (1/2) (1/2)).2.2.2.2.1 (by norm_num [validPt])).1,
   ((C5_validation ⟨6, 5, 2⟩ initRoot (1/2) (1/2)).2.2.2.2.1 (by norm_num [validPt])).2.1⟩

/-!  ## Claim C6 -/

/-- C6: `subdivide` on a leaf produces four children at `level + 1` on the
quadrant bounds, each carrying exactly a quarter of the pre-split load, and
zeroes the node's own load; the four quarters sum back to the pre-split
load, so no load is discarded. -/
theorem C6_subdivide_conservation (b : Box) (l : ℕ) (ld : ℚ) :
    (Node.leaf b l ld).subdivide =
      Node.inner b l 0 (.leaf b.quad0 (l+1) (ld/4)) (.leaf b.quad1 (l+1) (ld/4))
        (.leaf b.quad2 (l+1) (ld/4)) (.leaf b.quad3 (l+1) (ld/4)) ∧
    ld / 4 + ld / 4 + ld / 4 + ld / 4 = ld :=
  ⟨rfl, by ring⟩

/-!  ## Claim C7 -/

/-- C7: `merge` on an internal node whose four children are leaves yields a
leaf whose load is the sum of the four children's loads; and on an internal
node with four leaf children whose loads sum to `4`, `periodic_rebalance`
with `merge_threshold = 10` merges it into a leaf with load `4`. -/
theorem C7_merge_conservation :
    (∀ (b : Box) (l : ℕ) (ld : ℚ) (b0 b1 b2 b3 : Box) (l0 l1 l2 l3 : ℕ) (q0 q1 q2 q3 : ℚ),
      Node.merge (.inner b l ld (.leaf b0 l0 q0) (.leaf b1 l1 q1)
        (.leaf b2 l2 q2) (.leaf b3 l3 q3)) = .leaf b l (q0 + q1 + q2 + q3)) ∧
    FractalGrid.periodic_rebalance ⟨6, 5, 10⟩
      (Node.inner unitBox 0 0 (.leaf unitBox.quad0 1 1) (.leaf unitBox.quad1 1 1)
        (.leaf unitBox.quad2 1 1) (.leaf unitBox.quad3 1 1)) = .leaf unitBox 0 4 := by
  constructor
  · intro b l ld b0 b1 b2 b3 l0 l1 l2 l3 q0 q1 q2 q3
    rfl
  · norm_num [FractalGrid.periodic_rebalance, merge_repeatedly, Node.can_merge, Node.merge]

/-!  ## Claim C8 -/

/-- Spec-side reading of the `can_merge` guard: the node has children and
all four of them are leaves. -/
def Node.childrenAreLeaves : Node → Bool
  | .leaf _ _ _ => false
  | .inner _ _ _ c0 c1 c2 c3 => c0.is_leaf && c1.is_leaf && c2.is_leaf && c3.is_leaf

/-- Spec-side reading of the `can_merge` total: the sum of the four
children's loads (`0` on a leaf). -/
def Node.childLoadSum : Node → ℚ
  | .leaf _ _ _ => 0
  | .inner _ _ _ c0 c1 c2 c3 => c0.load + c1.load + c2.load + c3.load

/-- C8: `can_merge(mt)` is true exactly when the node is internal, all four
children are leaves, and the children's total load is strictly below `mt`;
in particular it is false whenever any child is internal, so merges never
skip a level. -/
theorem C8_can_merge_iff :
    (∀ (n : Node) (mt : ℚ), n.can_merge mt = true ↔
      n.is_leaf = false ∧ n.childrenAreLeaves = true ∧ n.childLoadSum < mt) ∧
    (∀ (b : Box) (l : ℕ) (ld : ℚ) (c0 c1 c2 c3 : Node) (mt : ℚ),
      c0.is_leaf = false ∨ c1.is_leaf = false ∨ c2.is_leaf = false ∨ c3.is_leaf = false →
      (Node.inner b l ld c0 c1 c2 c3).can_merge mt = false) := by
  constructor
  · intro n mt
    cases n with
    | leaf b l ld => simp [Node.can_merge, Node.childrenAreLeaves]
    | inner b l ld c0 c1 c2 c3 =>
      simp only [Node.can_merge, Node.is_leaf_inner, Node.childrenAreLeaves, Node.childLoadSum]
      by_cases h : (c0.is_leaf && c1.is_leaf && c2.is_leaf && c3.is_leaf) = true
      · rw [if_pos h]; simp [h]
      · rw [if_neg h]; simp [h]
  · intro b l ld c0 c1 c2 c3 mt h
    have hb : ¬(c0.is_leaf && c1.is_leaf && c2.is_leaf && c3.is_leaf) = true := by
      simp only [Bool.and_eq_true]
      rcases h with h | h | h | h <;> simp [h]
    simp only [Node.can_merge]
    rw [if_neg hb]

/-- Witness for C8: an internal child blocks the merge, while four leaf
children with total load below the threshold permit it. -/
theorem C8_can_merge_iff_witness :
    (Node.inner unitBox 0 0 (.leaf unitBox.quad0 1 1) (.leaf unitBox.quad1 1 1)
      (.leaf unitBox.quad2 1 1)
      (Node.inner unitBox.quad3 1 0 (.leaf unitBox 2 0) (.leaf unitBox 2 0)
        (.leaf unitBox 2 0) (.leaf unitBox 2 0))).can_merge 10 = false ∧
    (Node.inner unitBox 0 0 (.leaf unitBox.quad0 1 1) (.leaf unitBox.quad1 1 1)
      (.leaf unitBox.quad2 1 1) (.leaf unitBox.quad3 1 1)).can_merge 10 = true := by
  constructor
  · exact C8_can_merge_iff.2 unitBox 0 0 _ _ _ _ 10 (Or.inr (Or.inr (Or.inr rfl)))
  · exact (C8_can_merge_iff.1 _ 10).mpr ⟨rfl, rfl, by norm_num [Node.childLoadSum]⟩

/-!  ## Claim C9 -/

/-- An internal node over `b` at level `lv` whose four children are leaves
on the quadrants of `b`, each carrying load `q`. -/
def uniformParent (b : Box) (lv : ℕ) (q : ℚ) : Node :=
  .inner b lv 0 (.leaf b.quad0 (lv+1) q) (.leaf b.quad1 (lv+1) q)
    (.leaf b.quad2 (lv+1) q) (.leaf b.quad3 (lv+1) q)

/-- A uniform two-level tree: internal root over the unit square, four
internal children, sixteen grandchild leaves with load `0.1` each, for a
total leaf load of `1.6`. -/
def twoLevelTree : Node :=
  .inner unitBox 0 0 (uniformParent unitBox.quad0 1 (1/10))
    (uniformParent unitBox.quad1 1 (1/10)) (uniformParent unitBox.quad2 1 (1/10))
    (uniformParent unitBox.quad3 1 (1/10))

/-- C9: the merge sweep is post-order — at an internal node it first
processes all four children recursively and only then checks `can_merge` on
the updated node (first conjunct); therefore merges cascade bottom-up in a
single sweep: whenever the processed children all come back as leaves with
total load below the threshold, the node itself collapses to a leaf holding
that total (second conjunct); in particular the uniform two-level tree with
total leaf load `1.6 < 2` collapses to a single leaf in one
`periodic_rebalance` call (third conjunct). -/
theorem C9_postorder_cascade :
    (∀ (mt : ℚ) (b : Box) (l : ℕ) (ld : ℚ) (c0 c1 c2 c3 : Node),
      merge_repeatedly mt (.inner b l ld c0 c1 c2 c3) =
        if (Node.inner b l ld (merge_repeatedly mt c0) (merge_repeatedly mt c1)
            (merge_repeatedly mt c2) (merge_repeatedly mt c3)).can_merge mt then
          (Node.inner b l ld (merge_repeatedly mt c0) (merge_repeatedly mt c1)
            (merge_repeatedly mt c2) (merge_repeatedly mt c3)).merge
        else
          Node.inner b l ld (merge_repeatedly mt c0) (merge_repeatedly mt c1)
            (merge_repeatedly mt c2) (merge_repeatedly mt c3)) ∧
    (∀ (mt : ℚ) (b : Box) (l : ℕ) (ld : ℚ) (c0 c1 c2 c3 : Node),
      (merge_repeatedly mt c0).is_leaf = true → (merge_repeatedly mt c1).is_leaf = true →
      (merge_repeatedly mt c2).is_leaf = true → (merge_repeatedly mt c3).is_leaf = true →
      (merge_repeatedly mt c0).load + (merge_repeatedly mt c1).load +
        (merge_repeatedly mt c2).load + (merge_repeatedly mt c3).load < mt →
      merge_repeatedly mt (.inner b l ld c0 c1 c2 c3) =
        .leaf b l ((merge_repeatedly mt c0).load + (merge_repeatedly mt c1).load +
          (merge_repeatedly mt c2).load + (merge_repeatedly mt c3).load)) ∧
    FractalGrid.periodic_rebalance ⟨6, 5, 2⟩ twoLevelTree = .leaf unitBox 0 (8/5) := by
  refine ⟨?_, ?_, ?_⟩
  · intro mt b l ld c0 c1 c2 c3
    rfl
  · intro mt b l ld c0 c1 c2 c3 h0 h1 h2 h3 hs
    have hcm : (Node.inner b l ld (merge_repeatedly mt c0) (merge_repeatedly mt c1)
        (merge_repeatedly mt c2) (merge_repeatedly mt c3)).can_merge mt = true := by
      simp only [Node.can_merge, h0, h1, h2, h3, Bool.and_self, if_true]
      exact decide_eq_true hs
    rw [merge_repeatedly]
    rw [if_pos hcm]
    rfl
  · norm_num [FractalGrid.periodic_rebalance, merge_repeatedly, twoLevelTree, uniformParent,
      Node.can_merge, Node.merge]

/-- Witness for C9: the cascade conjunct applied to a one-level uniform
parent whose four leaf children hold load `0.1` each, with threshold `2`. -/
theorem C9_postorder_cascade_witness :
    merge_repeatedly 2 (uniformParent unitBox 0 (1/10)) = .leaf unitBox 0 (2/5) := by
  have h := C9_postorder_cascade.2.1 2 unitBox 0 0
    (.leaf unitBox.quad0 1 (1/10)) (.leaf unitBox.quad1 1 (1/10))
    (.leaf unitBox.quad2 1 (1/10)) (.leaf unitBox.quad3 1 (1/10))
    rfl rfl rfl rfl (by norm_num [merge_repeatedly])
  rw [uniformParent, h]
  norm_num [merge_repeatedly]

/-!  ## Claim C10 -/

/-- Every node's load in the tree is nonnegative (leaves and internals). -/
def allLoadsNonneg : Node → Prop
  | .leaf _ _ ld => 0 ≤ ld
  | .inner _ _ ld c0 c1 c2 c3 =>
    0 ≤ ld ∧ allLoadsNonneg c0 ∧ allLoadsNonneg c1 ∧ allLoadsNonneg c2 ∧ allLoadsNonneg c3

theorem decay_allLoadsNonneg (f : ℚ) :
    ∀ t : Node, allLoadsNonneg t → allLoadsNonneg (decay_load f t) := by
  intro t
  induction t with
  | leaf b l ld =>
    intro _
    show allLoadsNonneg (Node.leaf b l (if ld * f < 1 / 1000000 then 0 else ld * f))
    by_cases h : ld * f < 1 / 1000000
    · rw [if_pos h]; exact le_refl 0
    · rw [if_neg h]
      show (0 : ℚ) ≤ ld * f
      linarith [not_lt.mp h]
  | inner b l ld c0 c1 c2 c3 ih0 ih1 ih2 ih3 =>
    intro h
    obtain ⟨hz, h0, h1, h2, h3⟩ := h
    exact ⟨hz, ih0 h0, ih1 h1, ih2 h2, ih3 h3⟩

/-- Scenario D of the spec: a single leaf starting at load `1.0`, decayed
repeatedly with factor `0.9`. -/
def decaySeq : ℕ → Node
  | 0 => .leaf unitBox 0 1
  | n + 1 => decay_load (9/10) (decaySeq n)

theorem decaySeq_eq_leaf : ∀ n : ℕ, decaySeq n = Node.leaf unitBox 0 (decaySeq n).load
  | 0 => rfl
  | n + 1 => by
    rw [decaySeq, decaySeq_eq_leaf n]
    rfl

theorem decaySeq_succ_load (n : ℕ) :
    (decaySeq (n + 1)).load =
      if (decaySeq n).load * (9/10) < 1 / 1000000 then 0 else (decaySeq n).load * (9/10) := by
  conv_lhs => rw [decaySeq, decaySeq_eq_leaf n]
  rfl

theorem decaySeq_load_bounds : ∀ n : ℕ, 0 ≤ (decaySeq n).load ∧ (decaySeq n).load ≤ (9/10) ^ n
  | 0 => by norm_num [decaySeq]
  | n + 1 => by
    obtain ⟨h0, h1⟩ := decaySeq_load_bounds n
    rw [decaySeq_succ_load]
    by_cases h : (decaySeq n).load * (9/10) < 1 / 1000000
    · rw [if_pos h]
      constructor
      · exact le_refl 0
      · positivity
    · rw [if_neg h]
      constructor
      · exact mul_nonneg h0 (by norm_num)
      · calc (decaySeq n).load * (9/10) ≤ (9/10) ^ n * (9/10) :=
            mul_le_mul_of_nonneg_right h1 (by norm_num)
          _ = (9/10) ^ (n + 1) := by ring

theorem decaySeq_at_132 : (decaySeq 132).load = 0 := by
  rw [decaySeq_succ_load, if_pos]
  obtain ⟨h0, h1⟩ := decaySeq_load_bounds 131
  have h2 : (decaySeq 131).load * (9/10) ≤ (9/10) ^ 131 * (9/10) :=
    mul_le_mul_of_nonneg_right h1 (by norm_num)
  have h3 : ((9 : ℚ)/10) ^ 131 * (9/10) < 1 / 1000000 := by norm_num
  linarith

theorem decaySeq_zero_after : ∀ k : ℕ, (decaySeq (132 + k)).load = 0
  | 0 => decaySeq_at_132
  | k + 1 => by
    have h : 132 + (k + 1) = (132 + k) + 1 := rfl
    rw [h, decaySeq_succ_load, decaySeq_zero_after k]
    norm_num

/-- C10: `decay_load(f)` replaces every leaf load `ld` with `ld * f`, clamped
to exactly `0` when the product falls below `1e-6`, and leaves internal
nodes' loads untouched (first two conjuncts, the two shapes of the
traversal); for `f ∈ (0, 1]` it preserves nonnegativity of all loads; and
starting from a single leaf with load `1.0` under factor `0.9`, the load
strictly decreases at every step while positive, any step whose product
falls below `1e-6` lands on exactly `0`, and from step `132` on the load is
exactly `0`. -/
theorem C10_decay_clamp :
    (∀ (f : ℚ) (b : Box) (l : ℕ) (ld : ℚ),
      decay_load f (.leaf b l ld) = .leaf b l (if ld * f < 1 / 1000000 then 0 else ld * f)) ∧
    (∀ (f : ℚ) (b : Box) (l : ℕ) (ld : ℚ) (c0 c1 c2 c3 : Node),
      decay_load f (.inner b l ld c0 c1 c2 c3) =
        .inner b l ld (decay_load f c0) (decay_load f c1)
          (decay_load f c2) (decay_load f c3)) ∧
    (∀ (f : ℚ) (t : Node), 0 < f → f ≤ 1 →
      allLoadsNonneg t → allLoadsNonneg (decay_load f t)) ∧
    (∀ n : ℕ, 0 < (decaySeq n).load → (decaySeq (n + 1)).load < (decaySeq n).load) ∧
    (∀ n : ℕ, (decaySeq n).load * (9/10) < 1 / 1000000 → (decaySeq (n + 1)).load = 0) ∧
    (decaySeq 132).load = 0 ∧ (∀ k : ℕ, (decaySeq (132 + k)).load = 0) := by
  refine ⟨fun f b l ld => rfl, fun f b l ld c0 c1 c2 c3 => rfl,
    fun f t _ _ h => decay_allLoadsNonneg f t h, ?_, ?_, decaySeq_at_132, decaySeq_zero_after⟩
  · intro n hn
    rw [decaySeq_succ_load]
    by_cases h : (decaySeq n).load * (9/10) < 1 / 1000000
    · rw [if_pos h]; exact hn
    · rw [if_neg h]; linarith
  · intro n hn
    rw [decaySeq_succ_load, if_pos hn]

/-- Witness for C10: nonnegativity is preserved on the fresh root under
factor `0.9`; the first decay step strictly decreases the load `1`; and the
load is exactly `0` at step `200 = 132 + 68`. -/
theorem C10_decay_clamp_witness :
    allLoadsNonneg (decay_load (9/10) initRoot) ∧
    (decaySeq 1).load < (decaySeq 0).load ∧
    (decaySeq (132 + 68)).load = 0 := by
  refine ⟨?_, ?_, C10_decay_clamp.2.2.2.2.2.2 68⟩
  · exact C10_decay_clamp.2.2.1 (9/10) initRoot (by norm_num) (by norm_num) (le_refl 0)
  · exact C10_decay_clamp.2.2.2.1 0 (by norm_num [decaySeq])

/-!  ## Heap-level model for `get_leaves` (claim C1)

The Python program manipulates `Node` objects on a heap, and `get_leaves`
returns a list of those objects themselves.  To reason about reference
versus copy semantics the heap is made explicit: node objects addressed by
id, with `children` and `parent` stored as ids; a list of node objects is
then a list of ids. -/

/-- One Python `Node` object: bounds fields, `level`, the `parent`
reference, the `children` dict as four object ids (absent on a leaf), and
`load`. -/
structure NodeObj where
  x_min : ℚ
  y_min : ℚ
  x_max : ℚ
  y_max : ℚ
  level : ℕ
  parent : Option ℕ
  children : Option (ℕ × ℕ × ℕ × ℕ)
  load : ℚ
deriving DecidableEq

/-- A `FractalGrid` heap: node objects addressed by their position (the
object id), plus the id of `self.root`. -/
structure GridHeap where
  objs : List NodeObj
  root : ℕ
deriving DecidableEq

/-- `Node.contains` on a heap object. -/
def NodeObj.containsPt (n : NodeObj) (x y : ℚ) : Bool :=
  decide (n.x_min ≤ x) && decide (x < n.x_max) &&
  decide (n.y_min ≤ y) && decide (y < n.y_max)

/-- Dereference an id and run `contains`; a dangling id contains nothing
(never hit on a well-formed heap). -/
def idContains (h : List NodeObj) (i : ℕ) (x y : ℚ) : Bool :=
  match h[i]? with
  | some n => n.containsPt x y
  | none => false

/-- `FractalGrid._find_leaf` at heap level, with fuel bounding the descent
(the heap size suffices for any well-formed tree). -/
def findLeafId (h : List NodeObj) : ℕ → ℕ → ℚ → ℚ → ℕ
  | 0, i, _, _ => i
  | fuel + 1, i, x, y =>
    match h[i]? with
    | none => i
    | some n =>
      match n.children with
      | none => i
      | some (a, b, c, d) =>
        if idContains h a x y then findLeafId h fuel a x y
        else if idContains h b x y then findLeafId h fuel b x y
        else if idContains h c x y then findLeafId h fuel c x y
        else if idContains h d x y then findLeafId h fuel d x y
        else i

/-- The recursive `gather` of `FractalGrid.get_leaves`: the list of the
leaf node objects themselves — as Python references, their ids — in
depth-first order. -/
def gatherLeafIds (h : List NodeObj) : ℕ → ℕ → List ℕ
  | 0, _ => []
  | fuel + 1, i =>
    match h[i]? with
    | none => []
    | some n =>
      match n.children with
      | none => [i]
      | some (a, b, c, d) =>
        gatherLeafIds h fuel a ++ gatherLeafIds h fuel b ++
        gatherLeafIds h fuel c ++ gatherLeafIds h fuel d

/-- `FractalGrid.get_leaves` at heap level. -/
def GridHeap.get_leaves (g : GridHeap) : List ℕ :=
  gatherLeafIds g.objs g.objs.length g.root

/-- `leaf.load += 1.0` on the object with id `i`. -/
def bumpLoad (h : List NodeObj) (i : ℕ) : List NodeObj :=
  match h[i]? with
  | some n => h.set i { n with load := n.load + 1 }
  | none => h

/-- The `load` field read through a reference, the way consumers of
`get_leaves` (such as `update_anim`) read `node.load`. -/
def GridHeap.loadOf (g : GridHeap) (i : ℕ) : ℚ :=
  match g.objs[i]? with
  | some n => n.load
  | none => 0

/-- The bounds and level read through a reference. -/
def GridHeap.shapeOf (g : GridHeap) (i : ℕ) : Option (ℚ × ℚ × ℚ × ℚ × ℕ) :=
  match g.objs[i]? with
  | some n => some (n.x_min, n.y_min, n.x_max, n.y_max, n.level)
  | none => none

/-- `FractalGrid.get` at heap level: validate, find the leaf object,
increment its load in place, and return its (now updated) load. -/
def GridHeap.get (g : GridHeap) (x y : ℚ) : Option (GridHeap × ℚ) :=
  if valid_coord x && valid_coord y then
    let i := findLeafId g.objs g.objs.length g.root x y
    let g' : GridHeap := { objs := bumpLoad g.objs i, root := g.root }
    some (g', g'.loadOf i)
  else none

/-- The heap of a freshly constructed `FractalGrid()`: a single root leaf
object over the unit square with load `0`. -/
def initHeap : GridHeap :=
  { objs := [{ x_min := 0, y_min := 0, x_max := 1, y_max := 1, level := 0,
               parent := none, children := none, load := 0 }],
    root := 0 }

/-- The heap after `get(0.5, 0.5)` on `initHeap`: the same single object,
its `load` field now `1`. -/
def heapAfterGet : GridHeap :=
  { objs := [{ x_min := 0, y_min := 0, x_max := 1, y_max := 1, level := 0,
               parent := none, children := none, load := 1 }],
    root := 0 }

theorem initHeap_get_leaves : initHeap.get_leaves = [0] := by
  simp [GridHeap.get_leaves, initHeap, gatherLeafIds]

theorem initHeap_get : initHeap.get (1/2) (1/2) = some (heapAfterGet, 1) := by
  norm_num [GridHeap.get, valid_coord, initHeap, heapAfterGet, findLeafId, bumpLoad,
    GridHeap.loadOf, idContains]

theorem bumpLoad_getElem (h : List NodeObj) (i j : ℕ) :
    (bumpLoad h i)[j]? =
      if i = j then (h[j]?).map (fun n => { n with load := n.load + 1 }) else h[j]? := by
  unfold bumpLoad
  cases hI : h[i]? with
  | none =>
    by_cases hij : i = j
    · subst hij
      rw [if_pos rfl, hI]
      rfl
    · rw [if_neg hij]
  | some n =>
    have hlen : i < h.length := by
      rcases List.getElem?_eq_some_iff.mp hI with ⟨hl, -⟩
      exact hl
    by_cases hij : i = j
    · subst hij
      rw [if_pos rfl, List.getElem?_set_self hlen, hI]
      rfl
    · rw [if_neg hij, List.getElem?_set_ne hij]

/-- C1 counterexample: on a fresh grid, `get_leaves()` returns the root
leaf object itself (id `0`), and a subsequent mutation — `get(0.5, 0.5)` —
changes the load read through that already-returned snapshot element from
`0` to `1`; the snapshot elements are live references, not immutable
copies. -/
theorem C1_snapshot_not_copies_counterexample :
    initHeap.get_leaves = [0] ∧
    initHeap.get (1/2) (1/2) = some (heapAfterGet, 1) ∧
    initHeap.loadOf 0 = 0 ∧
    heapAfterGet.loadOf 0 = 1 ∧
    ¬heapAfterGet.loadOf 0 = initHeap.loadOf 0 := by
  refine ⟨initHeap_get_leaves, initHeap_get, ?_, ?_, ?_⟩ <;>
    norm_num [GridHeap.loadOf, initHeap, heapAfterGet]

/-- C1 (amended): every element of the sequence returned by `get_leaves()`
is a live reference into the tree; a subsequent `get` changes the load
value read through the already-returned snapshot element that it hits
(incrementing it by exactly `1`, which is also the value `get` returns),
while the bounds and level fields read through any snapshot element are
unchanged, since `get` mutates no field other than `load`. -/
theorem C1_get_leaves_live_references (g : GridHeap) (x y : ℚ) (g' : GridHeap) (r : ℚ)
    (hg : g.get x y = some (g', r))
    (hi : findLeafId g.objs g.objs.length g.root x y < g.objs.length) :
    (∀ i : ℕ, g'.shapeOf i = g.shapeOf i) ∧
    g'.loadOf (findLeafId g.objs g.objs.length g.root x y) =
      g.loadOf (findLeafId g.objs g.objs.length g.root x y) + 1 ∧
    r = g.loadOf (findLeafId g.objs g.objs.length g.root x y) + 1 := by
  simp only [GridHeap.get] at hg
  by_cases hv : (valid_coord x && valid_coord y) = true
  · rw [if_pos hv, Option.some_inj, Prod.mk.injEq] at hg
    obtain ⟨hg1, hg2⟩ := hg
    subst hg1
    subst hg2
    refine ⟨?_, ?_, ?_⟩
    · intro i
      unfold GridHeap.shapeOf
      show (match (bumpLoad g.objs (findLeafId g.objs g.objs.length g.root x y))[i]? with
        | some n => some (n.x_min, n.y_min, n.x_max, n.y_max, n.level)
        | none => none) = _
      rw [bumpLoad_getElem]
      by_cases hij : findLeafId g.objs g.objs.length g.root x y = i
      · rw [if_pos hij]
        cases hj : g.objs[i]? <;> rfl
      · rw [if_neg hij]
    · unfold GridHeap.loadOf
      show (match (bumpLoad g.objs (findLeafId g.objs g.objs.length g.root x y))[findLeafId
          g.objs g.objs.length g.root x y]? with
        | some n => n.load
        | none => 0) = _
      rw [bumpLoad_getElem, if_pos rfl, List.getElem?_eq_getElem hi]
      rfl
    · unfold GridHeap.loadOf
      show (match (bumpLoad g.objs (findLeafId g.objs g.objs.length g.root x y))[findLeafId
          g.objs g.objs.length g.root x y]? with
        | some n => n.load
        | none => 0) = _
      rw [bumpLoad_getElem, if_pos rfl, List.getElem?_eq_getElem hi]
      rfl
  · rw [if_neg hv] at hg
    exact absurd hg (by simp)

/-- Witness for C1 (amended): on the fresh heap, after `get(0.5, 0.5)` the
snapshot element `0` reads load `1 = 0 + 1` while its bounds and level read
unchanged. -/
theorem C1_get_leaves_live_references_witness :
    heapAfterGet.shapeOf 0 = initHeap.shapeOf 0 ∧
    heapAfterGet.loadOf 0 = initHeap.loadOf 0 + 1 := by
  have hfind : findLeafId initHeap.objs initHeap.objs.length initHeap.root (1/2) (1/2) = 0 := by
    norm_num [initHeap, findLeafId, idContains]
  have h := C1_get_leaves_live_references initHeap (1/2) (1/2) heapAfterGet 1
    initHeap_get (by rw [hfind]; norm_num [initHeap])
  refine ⟨h.1 0, ?_⟩
  have h2 := h.2.1
  rw [hfind] at h2
  exact h2

end GStar
